import Mathlib

/-!
Verification of the copper-rs configuration graph model
(`core/cu29_runtime/src/config.rs`).

The Rust code stores the configuration in a
`petgraph::stable_graph::StableDiGraph<Node, Cnx, NodeId>`.  The embedding
below keeps the graph as two append-only lists: `nodes` (node weights, the
list index is the petgraph node index) and `edges` (edge records carrying the
two endpoint indices and the `Cnx` weight, the list index is the petgraph
edge index).  The configuration API used by the claims never removes nodes or
edges, so indices stay dense and `node_indices` / `edge_indices` enumerate
`0, 1, ...` in order.

petgraph keeps, per node, a singly linked adjacency list per direction and
`add_edge` pushes the new edge at the HEAD of both endpoint lists; the
`edges_directed` iterator walks that list, so it produces edges in reverse
order of their insertion (this is the documented behaviour of
`Graph::neighbors`: "Neighbors are listed in reverse order of their
addition").  `getSrcEdges` / `getDstEdges` below reproduce this by filtering
the edge indices touching the node and reversing.

Panics in the Rust code (`expect`, `panic!`-style failures) are modelled as
`Except.error` or as `Option` results (`none` = panic), as noted on each
definition.  The RON text layer is out of scope (spec §1); serialization is
modelled down to the `CuConfigRepresentation` value that the custom
`Serialize` / `Deserialize` impls exchange with serde.
-/

set_option autoImplicit false

namespace CopperConfig

/-- Numeric payload of a RON value, mirroring `ron::Number`: one constructor
per machine-width variant. Signed variants carry the mathematical value as an
`Int`, unsigned ones as a `Nat`; floats carry their raw bit pattern, which no
claim inspects numerically. -/
inductive RonNumber where
  | i8 (n : Int)
  | i16 (n : Int)
  | i32 (n : Int)
  | i64 (n : Int)
  | u8 (n : Nat)
  | u16 (n : Nat)
  | u32 (n : Nat)
  | u64 (n : Nat)
  | f32 (bits : Nat)
  | f64 (bits : Nat)

/-- Mathematical value of an integer variant; `none` on the float variants. -/
def RonNumber.intValue? : RonNumber → Option Int
  | .i8 n => some n
  | .i16 n => some n
  | .i32 n => some n
  | .i64 n => some n
  | .u8 n => some (n : Int)
  | .u16 n => some (n : Int)
  | .u32 n => some (n : Int)
  | .u64 n => some (n : Int)
  | .f32 _ => none
  | .f64 _ => none

/-- Exact mirror of `ron::value::Value` (the code calls it `RonValue`). -/
inductive RonValue where
  | number (n : RonNumber)
  | string (s : String)
  | bool (b : Bool)
  | char (c : Char)
  | map (entries : List (RonValue × RonValue))
  | option (o : Option RonValue)
  | seq (elems : List RonValue)
  | bytes (bs : List Nat)
  | unit

/-- Newtype wrapper `struct Value(RonValue)` from `config.rs`. -/
structure Value where
  val : RonValue

/-- Mirror of `impl From<i32> for Value` (`RonValue::Number(value.into())`,
which yields `Number::I32`). -/
def Value.ofI32 (n : Int) : Value := ⟨.number (.i32 n)⟩

/-- Mirror of `impl From<u32> for Value`: the code widens with
`value as u64` first, so the stored variant is `Number::U64`. -/
def Value.ofU32 (n : Nat) : Value := ⟨.number (.u64 n)⟩

/-- Mirror of `impl From<String> for Value`. -/
def Value.ofString (s : String) : Value := ⟨.string s⟩

/-- The eight target types generated by the
`impl_from_value_for_int!(u8, i8, u16, i16, u32, i32, u64, i64)` macro. -/
inductive IntTarget where
  | u8 | i8 | u16 | i16 | u32 | i32 | u64 | i64
deriving DecidableEq

/-- Bit width of an integer target type. -/
def IntTarget.width : IntTarget → Nat
  | .u8 => 8 | .i8 => 8
  | .u16 => 16 | .i16 => 16
  | .u32 => 32 | .i32 => 32
  | .u64 => 64 | .i64 => 64

/-- Signedness of an integer target type. -/
def IntTarget.signed : IntTarget → Bool
  | .i8 => true | .i16 => true | .i32 => true | .i64 => true
  | .u8 => false | .u16 => false | .u32 => false | .u64 => false

/-- Reinterpret `m` (already reduced to `0 ≤ m < 2^w`) as a `w`-bit machine
integer: unsigned targets keep `m`, signed targets subtract `2^w` from the
upper half. -/
def interpBits (w : Nat) (signed : Bool) (m : Int) : Int :=
  if signed = true ∧ 2 ^ (w - 1) ≤ m then m - 2 ^ w else m

/-- Semantics of the Rust integer cast `n as T` applied to a source value
whose mathematical value is `n`: keep the low `T.width` bits of the
two's-complement representation and reinterpret them in `T`. -/
def rustCast (t : IntTarget) (n : Int) : Int :=
  interpBits t.width t.signed (n % 2 ^ t.width)

/-- Mirror of the `From<Value> for $target` impls generated by
`impl_from_value_for_int!`: the two `panic!` arms (non-`Number` variant,
float variant) are modelled as `Except.error`, and each integer arm performs
the `n as $target` cast. -/
def fromValueInt (t : IntTarget) (v : Value) : Except String Int :=
  match v with
  | ⟨.number num⟩ =>
    match num with
    | .i8 n => .ok (rustCast t n)
    | .i16 n => .ok (rustCast t n)
    | .i32 n => .ok (rustCast t n)
    | .i64 n => .ok (rustCast t n)
    | .u8 n => .ok (rustCast t (n : Int))
    | .u16 n => .ok (rustCast t (n : Int))
    | .u32 n => .ok (rustCast t (n : Int))
    | .u64 n => .ok (rustCast t (n : Int))
    | .f32 _ => .error "Expected an integer Number variant"
    | .f64 _ => .error "Expected an integer Number variant"
  | _ => .error "Expected a Number variant"

/-- Mirror of `ComponentConfig(pub HashMap<String, Value>)`.  The `HashMap`
is modelled as an association list without duplicate keys; `HashMap::insert`
replaces in place, `get` finds the unique entry. -/
structure ComponentConfig where
  entries : List (String × Value)

/-- Insertion into the association list modelling `HashMap::insert`: replace
the value when the key is present, append otherwise. -/
def insertEntry : List (String × Value) → String → Value → List (String × Value)
  | [], k, v => [(k, v)]
  | (k', v') :: rest, k, v =>
    if k' = k then (k, v) :: rest else (k', v') :: insertEntry rest k v

/-- Mirror of `ComponentConfig::get` (sans the `From` conversion, applied by
callers). -/
def ComponentConfig.get (c : ComponentConfig) (key : String) : Option Value :=
  (c.entries.find? fun p => p.1 == key).map Prod.snd

/-- Mirror of `ComponentConfig::set` / `HashMap::insert`. -/
def ComponentConfig.set (c : ComponentConfig) (key : String) (v : Value) :
    ComponentConfig :=
  ⟨insertEntry c.entries key v⟩

/-- Mirror of `struct Node` from `config.rs`. -/
structure Node where
  id : String
  type_ : Option String
  config : Option ComponentConfig

/-- Mirror of `Node::new`. -/
def Node.new (id ptype : String) : Node :=
  { id := id, type_ := some ptype, config := none }

/-- Mirror of `Node::get_id`. -/
def Node.getId (n : Node) : String := n.id

/-- Mirror of `Node::set_param::<T>` for any already-converted `Value`. -/
def Node.setParam (n : Node) (key : String) (v : Value) : Node :=
  let c := match n.config with
    | some c => c
    | none => ⟨[]⟩
  { n with config := some (c.set key v) }

/-- Mirror of `Node::get_param::<T>` at an integer target type `t`:
`none` when there is no config or no such key (the two `?` operators), and
the inner `Except` models the `From<Value>` conversion panic. -/
def Node.getParamInt (t : IntTarget) (n : Node) (key : String) :
    Option (Except String Int) :=
  match n.config with
  | none => none
  | some c => (c.get key).map (fromValueInt t)

/-- Mirror of `struct Cnx` (edge weight). `batch : u32` is modelled as `Nat`. -/
structure Cnx where
  src : String
  dst : String
  msg : String
  batch : Option Nat
  store : Option Bool

/-- One petgraph edge record: endpoint node indices `a` (source) and `b`
(target), as in petgraph's `Edge.node : [NodeIndex; 2]`, plus the `Cnx`
weight. -/
structure CuEdge where
  a : Nat
  b : Nat
  cnx : Cnx

/-- Mirror of `struct MonitorConfig`. -/
structure MonitorConfig where
  type_ : String
  config : Option ComponentConfig

/-- Mirror of `struct LoggingConfig`. -/
structure LoggingConfig where
  slab_size_mib : Option Nat
  section_size_mib : Option Nat
  enable_task_logging : Bool

/-- Mirror of `struct CuConfig` with the `StableDiGraph` flattened into the
two dense index-ordered lists described in the module comment. -/
structure CuConfig where
  nodes : List Node
  edges : List CuEdge
  monitor : Option MonitorConfig
  logging : Option LoggingConfig

/-- Mirror of `impl Default for CuConfig` (empty graph, no monitor, no
logging). -/
def CuConfig.default : CuConfig :=
  { nodes := [], edges := [], monitor := none, logging := none }

/-- Mirror of `CuConfig::add_node`: appends the node, returns the updated
config and the fresh `NodeId` (petgraph assigns the next free index, which is
the current node count since nothing is ever removed). -/
def CuConfig.addNode (g : CuConfig) (node : Node) : CuConfig × Nat :=
  ({ g with nodes := g.nodes ++ [node] }, g.nodes.length)

/-- Mirror of `CuConfig::get_node` (`StableDiGraph::node_weight`). -/
def CuConfig.getNode (g : CuConfig) (node_id : Nat) : Option Node :=
  g.nodes.get? node_id

/-- Mirror of `CuConfig::get_edge_weight`. -/
def CuConfig.getEdgeWeight (g : CuConfig) (index : Nat) : Option Cnx :=
  (g.edges.get? index).map CuEdge.cnx

/-- Mirror of `CuConfig::connect_ext`.  The Rust code builds the `Cnx` from
`get_node(source).expect(..)` / `get_node(target).expect(..)`; those two
`expect`s (and petgraph's own bounds panic in `add_edge`) are modelled by the
`none` result.  On success the new edge gets the next dense edge index. -/
def CuConfig.connectExt (g : CuConfig) (source target : Nat) (msg_type : String)
    (batch : Option Nat) (store : Option Bool) : Option CuConfig :=
  match g.getNode source, g.getNode target with
  | some sn, some tn =>
    some { g with
            edges := g.edges ++
              [{ a := source, b := target,
                 cnx := { src := sn.id, dst := tn.id, msg := msg_type,
                          batch := batch, store := store } }] }
  | _, _ => none

/-- Mirror of `CuConfig::connect` (`connect_ext` with `batch = store = None`). -/
def CuConfig.connect (g : CuConfig) (source target : Nat) (msg_type : String) :
    Option CuConfig :=
  g.connectExt source target msg_type none none

/-- Mirror of `CuConfig::get_src_edges`: indices of the edges leaving
`node_id`, in the order `edges_directed(node_id, Outgoing)` yields them.
petgraph walks the head-inserted adjacency list, i.e. reverse insertion
order, hence the `reverse` of the ascending filter. -/
def CuConfig.getSrcEdges (g : CuConfig) (node_id : Nat) : List Nat :=
  (((List.range g.edges.length).filter fun i =>
    match g.edges.get? i with
    | some e => e.a == node_id
    | none => false)).reverse

/-- Mirror of `CuConfig::get_dst_edges`: same as `getSrcEdges` for the
incoming direction. -/
def CuConfig.getDstEdges (g : CuConfig) (node_id : Nat) : List Nat :=
  (((List.range g.edges.length).filter fun i =>
    match g.edges.get? i with
    | some e => e.b == node_id
    | none => false)).reverse

/-- Index of the first node whose `id` equals `id`, i.e.
`graph.node_indices().find(|i| graph[*i].id == id)` as used by the
`Deserialize` impl. -/
def CuConfig.findNodeIdx (g : CuConfig) (id : String) : Option Nat :=
  (List.range g.nodes.length).find? fun i =>
    match g.nodes.get? i with
    | some n => n.id == id
    | none => false

/-- Mirror of `CuConfig::get_node_output_msg_type`: scan the node indices for
the first node with the given string id (`find_map`); for it, panic
(`Except.error`) when it has no outgoing edge, otherwise return the `msg` of
the edge at position 0 of `get_src_edges`. `ok none` means no node matched. -/
def CuConfig.getNodeOutputMsgType (g : CuConfig) (node_id : String) :
    Except String (Option String) :=
  match g.findNodeIdx node_id with
  | none => .ok none
  | some i =>
    match g.getSrcEdges i with
    | [] => .error "A CuSrcTask is configured with no task connected to it."
    | e0 :: _ =>
      match g.edges.get? e0 with
      | some e => .ok (some e.cnx.msg)
      | none => .error "Found an cnx id but could not retrieve it back"

/-- Mirror of `CuConfig::get_node_input_msg_type` (incoming direction). -/
def CuConfig.getNodeInputMsgType (g : CuConfig) (node_id : String) :
    Except String (Option String) :=
  match g.findNodeIdx node_id with
  | none => .ok none
  | some i =>
    match g.getDstEdges i with
    | [] => .error "A CuSinkTask is configured with no task connected to it."
    | e0 :: _ =>
      match g.edges.get? e0 with
      | some e => .ok (some e.cnx.msg)
      | none => .error "Found an cnx id but could not retrieve it back"

/-- Mirror of `struct CuConfigRepresentation`, the value serde actually
serializes and deserializes. -/
structure CuConfigRepresentation where
  tasks : List Node
  cnx : List Cnx
  monitor : Option MonitorConfig
  logging : Option LoggingConfig

/-- The `for task in representation.tasks { cuconfig.add_node(task) }` loop. -/
def CuConfig.addNodes (g : CuConfig) : List Node → CuConfig
  | [] => g
  | t :: rest => CuConfig.addNodes (g.addNode t).1 rest

/-- The `for c in representation.cnx` loop of the `Deserialize` impl: look up
both endpoints by string id (the two `expect`-style panics are the `none`
result) and `connect_ext` them. -/
def CuConfig.addCnxs (g : CuConfig) : List Cnx → Option CuConfig
  | [] => some g
  | c :: rest =>
    match g.findNodeIdx c.src, g.findNodeIdx c.dst with
    | some src, some dst =>
      match g.connectExt src dst c.msg c.batch c.store with
      | some g' => CuConfig.addCnxs g' rest
      | none => none
    | _, _ => none

/-- Mirror of `impl Deserialize for CuConfig`, on the already-parsed
representation (text parsing is out of scope, spec §1): add the tasks in
textual order, then connect the cnx entries in textual order, then install
monitor and logging. `none` models the endpoint-lookup panics. -/
def CuConfig.deserialize (r : CuConfigRepresentation) : Option CuConfig :=
  (CuConfig.addCnxs (CuConfig.addNodes CuConfig.default r.tasks) r.cnx).map
    fun g => { g with monitor := r.monitor, logging := r.logging }

/-- Mirror of `impl Serialize for CuConfig`: nodes in `node_indices` order,
edge weights in `edge_indices` order (both are ascending dense index order
here, see the module comment). -/
def CuConfig.serialize (g : CuConfig) : CuConfigRepresentation :=
  { tasks := g.nodes, cnx := g.edges.map CuEdge.cnx,
    monitor := g.monitor, logging := g.logging }

/-- Mirror of `LoggingConfig::validate`. -/
def LoggingConfig.validate (l : LoggingConfig) : Except String Unit :=
  match l.section_size_mib with
  | some section_size_mib =>
    match l.slab_size_mib with
    | some slab_size_mib =>
      if slab_size_mib < section_size_mib then
        .error ("Section size (" ++ toString section_size_mib ++
          " MiB) cannot be larger than slab size (" ++ toString slab_size_mib ++
          " MiB). Adjust the parameters accordingly.")
      else .ok ()
    | none => .ok ()
  | none => .ok ()

/-- Mirror of `CuConfig::validate_logging_config`. -/
def CuConfig.validateLoggingConfig (g : CuConfig) : Except String Unit :=
  match g.logging with
  | some logging => logging.validate
  | none => .ok ()

/-- Mirror of `read_configuration_str`, starting from the parsed
representation: `deserialize_ron` (whose internal panics are the outer
`none`), then `validate_logging_config`, whose failure is the only error
return. -/
def readConfigurationStr (r : CuConfigRepresentation) :
    Option (Except String CuConfig) :=
  (CuConfig.deserialize r).map fun cuconfig =>
    match cuconfig.validateLoggingConfig with
    | .ok _ => .ok cuconfig
    | .error e => .error e

/-- Value range of an integer target type: the interval a Rust `u8`/`i8`/...
can represent. -/
@[reducible]
def IntTarget.InRange (t : IntTarget) (r : Int) : Prop :=
  match t.signed with
  | true => -(2 ^ (t.width - 1)) ≤ r ∧ r < 2 ^ (t.width - 1)
  | false => 0 ≤ r ∧ r < 2 ^ t.width

/-- Decimal rendering of the numeric variants, mirroring the `Number` arm of
`impl Display for Value` (`n.to_string()` on each width).  Float rendering is
abstracted to the raw bit pattern (no claim inspects a float's text). -/
def RonNumber.display : RonNumber → String
  | .i8 n => toString n
  | .i16 n => toString n
  | .i32 n => toString n
  | .i64 n => toString n
  | .u8 n => toString n
  | .u16 n => toString n
  | .u32 n => toString n
  | .u64 n => toString n
  | .f32 bits => toString bits
  | .f64 bits => toString bits

/-- Mirror of `impl Display for Value`: numbers, strings and booleans follow
the Rust impl exactly (`write!(f, "{s}")`, `write!(f, "{b}")`); `Unit` prints
`unit` as in the source; the `Debug`-formatted container variants (`Map`,
`Option`, `Seq`, `Bytes`) and `Char` are abstracted to fixed tags — the spec
calls these a debug-grade representation and no claim inspects them. -/
def RonValue.display : RonValue → String
  | .number n => n.display
  | .string s => s
  | .bool b => toString b
  | .char c => String.singleton c
  | .map _ => "<map>"
  | .option _ => "<option>"
  | .seq _ => "<seq>"
  | .bytes _ => "<bytes>"
  | .unit => "unit"

/-- Display of the `Value` newtype. -/
def Value.display (v : Value) : String := v.val.display

/-- Mirror of `html_escape::encode_text` on one character: the text-safe
entities for `&`, `<` and `>`. -/
def encodeChar (c : Char) : String :=
  if c = '&' then "&amp;"
  else if c = '<' then "&lt;"
  else if c = '>' then "&gt;"
  else String.singleton c

/-- Mirror of `html_escape::encode_text`: escape `&`, `<`, `>`. -/
def encodeText (s : String) : String :=
  String.join (s.data.map encodeChar)

/-- Mirror of Rust's `Vec::join(sep)` used for the config lines of a node
label. -/
def joinSep (sep : String) : List String → String
  | [] => ""
  | [s] => s
  | s :: rest => s ++ sep ++ joinSep sep rest

/-- The `config_str` computation at the top of the per-node loop of
`CuConfig::render`. -/
def configStr (config : Option ComponentConfig) : String :=
  match config with
  | some c =>
    "____________<BR/><BR ALIGN=\"LEFT\"/>" ++
      joinSep "\n"
        (c.entries.map fun p =>
          "<B>" ++ p.1 ++ "</B> = " ++ p.2.display ++ "<BR ALIGN=\"LEFT\"/>")
  | none => ""

/-- The `label=< ... >` line of one node: red bold id, dimgray bracketed
type, then the expanded config. -/
def labelLine (node : Node) (t : String) : String :=
  "label=< <FONT COLOR=\"red\"><B>" ++ node.id ++
    "</B></FONT> <FONT COLOR=\"dimgray\">[" ++ t ++
    "]</FONT><BR ALIGN=\"LEFT\"/>" ++ configStr node.config ++ " >"

/-- The lines emitted by one iteration of the node loop of
`CuConfig::render` for the node `node` at index `i`.  The `none` result
models the `node.get_type().unwrap()` panic on a node without a `type`
field. -/
def nodeBlock (g : CuConfig) (i : Nat) (node : Node) : Option (List String) :=
  match node.type_ with
  | none => none
  | some t =>
    some
      ([toString i ++ " [",
        "shape=box,",
        "style=\"rounded, filled\",",
        "fontname=\"Noto Sans\""] ++
       [if g.getDstEdges i = [] then "fillcolor=lightgreen,"
        else if g.getSrcEdges i = [] then "fillcolor=lightblue,"
        else "fillcolor=lightgrey,"] ++
       ["color=grey,",
        "labeljust=l,",
        labelLine node t,
        "];"])

/-- Substring containment between strings, as infix containment of the
underlying character lists. -/
def containsStr (hay needle : String) : Prop :=
  needle.data <:+: hay.data

/-- The node loop of `CuConfig::render`: node at list position `k` has
petgraph index `i0 + k` (the loop runs over `node_indices`, which is the
ascending dense index order). -/
def renderNodesFrom (g : CuConfig) (i0 : Nat) : List Node → Option (List String)
  | [] => some []
  | n :: rest =>
    match nodeBlock g i0 n, renderNodesFrom g (i0 + 1) rest with
    | some b, some bs => some (b ++ bs)
    | _, _ => none

/-- The line emitted by the edge loop of `CuConfig::render` for one edge:
`edge_endpoints` gives the stored endpoint indices and the label carries the
escaped `msg`. -/
def edgeLine (e : CuEdge) : String :=
  toString e.a ++ " -> " ++ toString e.b ++
    " [label=< <B><FONT COLOR=\"gray\">" ++ encodeText e.cnx.msg ++
    "</FONT></B> >];"

/-- Mirror of `CuConfig::render`, producing the emitted lines: the
`digraph G \x7b` header, the per-node blocks in index order, the per-edge
lines in index order, and the closing brace. `none` models the
`get_type` panic on an untyped node. -/
def CuConfig.render (g : CuConfig) : Option (List String) :=
  match renderNodesFrom g 0 g.nodes with
  | some blocks =>
    some (["digraph G \x7b"] ++ blocks ++ g.edges.map edgeLine ++ ["\x7d"])
  | none => none

/-- Uniqueness of the string node ids inside a graph (spec §3 graph
invariant). -/
def CuConfig.NodeIdsUnique (g : CuConfig) : Prop :=
  g.nodes.Pairwise fun m n => m.id ≠ n.id

/-- One edge is consistent with a node list: both endpoint indices name
existing nodes and the stored `Cnx.src` / `Cnx.dst` strings are exactly the
ids of those endpoint nodes. -/
def NodesMatchEdge (nodes : List Node) (e : CuEdge) : Prop :=
  ∃ ns nd, nodes.get? e.a = some ns ∧ nodes.get? e.b = some nd ∧
    e.cnx.src = ns.id ∧ e.cnx.dst = nd.id

/-- Edge/endpoint consistency of a whole graph. -/
def CuConfig.EdgesWf (g : CuConfig) : Prop :=
  ∀ e ∈ g.edges, NodesMatchEdge g.nodes e

/-- The graph-building operations named by claim C10. -/
inductive Op where
  | addNode (n : Node)
  | connect (source target : Nat) (msg : String)
  | connectExt (source target : Nat) (msg : String) (batch : Option Nat)
      (store : Option Bool)

/-- Apply one operation; `none` models the `connect_ext` panics. -/
def applyOp (g : CuConfig) : Op → Option CuConfig
  | .addNode n => some (g.addNode n).1
  | .connect s t m => g.connect s t m
  | .connectExt s t m b st => g.connectExt s t m b st

/-- Apply a sequence of operations, stopping at the first panic. -/
def applyOps (g : CuConfig) : List Op → Option CuConfig
  | [] => some g
  | op :: rest =>
    match applyOp g op with
    | some g' => applyOps g' rest
    | none => none

/-! Concrete configurations used by the concrete claims, counterexamples and
witnesses. -/

/-- A graph with two parallel connections declared in the order `m1`, `m2`:
node `a` (index 0) connected twice to node `b` (index 1). -/
def exTwoEdges : CuConfig :=
  (((CuConfig.default.addNode (Node.new "a" "ta")).1.addNode (Node.new "b" "tb")).1.connect
        0 1 "m1"
    |>.bind fun g => g.connect 0 1 "m2").getD CuConfig.default

/-- The representation of the repository's
`test_deserialization_edge_id_assignment` RON text: tasks `src1`, `src2`,
`sink`, connections `src2 → sink` then `src1 → sink`. -/
def repEdgeOrder : CuConfigRepresentation :=
  { tasks := [Node.new "src1" "a", Node.new "src2" "b", Node.new "sink" "c"],
    cnx := [{ src := "src2", dst := "sink", msg := "msg1", batch := none,
              store := none },
            { src := "src1", dst := "sink", msg := "msg2", batch := none,
              store := none }],
    monitor := none, logging := none }

/-- The two-node graph of the repository's `test_plain_serialize`. -/
def exRoundTrip : CuConfig :=
  (((CuConfig.default.addNode (Node.new "test1" "package::Plugin1")).1.addNode
        (Node.new "test2" "package::Plugin2")).1.connect 0 1
    "msgpkg::MsgType").getD CuConfig.default

/-- A representation that is NOT a valid graph: two tasks share the id `a`
and the single connection is a self-loop (a cycle). -/
def repDupCycle : CuConfigRepresentation :=
  { tasks := [Node.new "a" "ta", Node.new "a" "tb"],
    cnx := [{ src := "a", dst := "a", msg := "m", batch := none,
              store := none }],
    monitor := none, logging := none }

/-- The graph the code actually builds from `repDupCycle`: both `a` nodes
kept, and a self-loop on node 0 (the first node whose id matches). -/
def gDupCycle : CuConfig :=
  { nodes := [Node.new "a" "ta", Node.new "a" "tb"],
    edges := [{ a := 0, b := 0,
                cnx := { src := "a", dst := "a", msg := "m", batch := none,
                         store := none } }],
    monitor := none, logging := none }

/-- A representation whose connection names a task id that does not exist. -/
def repMissingEndpoint : CuConfigRepresentation :=
  { tasks := [Node.new "a" "ta"],
    cnx := [{ src := "a", dst := "ghost", msg := "m", batch := none,
              store := none }],
    monitor := none, logging := none }

/-- The logging configuration of the spec's rejection scenario:
`slab_size_mib: 100, section_size_mib: 1024`. -/
def loggingBad : LoggingConfig :=
  { slab_size_mib := some 100, section_size_mib := some 1024,
    enable_task_logging := true }

/-- The node of the repository's `test_serialize_with_params`:
`copper-camera` with `resolution-height: 1080` (an `i32` parameter). -/
def cameraNode : Node :=
  (Node.new "copper-camera" "camerapkg::Camera").setParam "resolution-height"
    (Value.ofI32 1080)

/-- The one-node graph of `test_serialize_with_params`. -/
def gCamera : CuConfig := (CuConfig.default.addNode cameraNode).1

/-- A three-node chain `a → b → c` exercising all three render colours. -/
def exChain : CuConfig :=
  ((((CuConfig.default.addNode (Node.new "a" "ta")).1.addNode
          (Node.new "b" "tb")).1.addNode (Node.new "c" "tc")).1.connect 0 1 "m<1"
    |>.bind fun g => g.connect 1 2 "m2").getD CuConfig.default

/-- The operation sequence of claim C10's witness. -/
def opsWitness : List Op :=
  [Op.addNode (Node.new "a" "ta"), Op.addNode (Node.new "b" "tb"),
   Op.connect 0 1 "m", Op.connectExt 1 0 "m2" (some 3) (some false)]

/-- The lines `render` emits for `exChain`. -/
def exChainLines : List String := (exChain.render).getD []

/-- The node block `render` emits for node 0 of `exChain`. -/
def exChainBlock0 : List String :=
  (nodeBlock exChain 0 (Node.new "a" "ta")).getD []

/-- The graph `opsWitness` builds from the empty configuration. -/
def gOpsW : CuConfig :=
  { nodes := [Node.new "a" "ta", Node.new "b" "tb"],
    edges := [CuEdge.mk 0 1 (Cnx.mk "a" "b" "m" none none),
              CuEdge.mk 1 0 (Cnx.mk "b" "a" "m2" (some 3) (some false))],
    monitor := none, logging := none }

/-! Helper lemmas. -/

/-- Membership in `getSrcEdges`: exactly the indices of stored edges whose
source endpoint is `v`. -/
theorem mem_getSrcEdges {g : CuConfig} {v i : Nat} :
    i ∈ g.getSrcEdges v ↔ ∃ e, g.edges.get? i = some e ∧ e.a = v := by
  unfold CuConfig.getSrcEdges
  rw [List.mem_reverse, List.mem_filter, List.mem_range]
  constructor
  · rintro ⟨hlt, hp⟩
    cases he : g.edges.get? i with
    | none => rw [he] at hp; simp at hp
    | some e =>
      rw [he] at hp
      exact ⟨e, rfl, by simpa using hp⟩
  · rintro ⟨e, he, ha⟩
    have hlt : i < g.edges.length := by
      rcases List.get?_eq_some.mp he with ⟨h, -⟩
      exact h
    refine ⟨hlt, ?_⟩
    rw [he]
    simpa using ha

/-- Membership in `getDstEdges`: exactly the indices of stored edges whose
target endpoint is `v`. -/
theorem mem_getDstEdges {g : CuConfig} {v i : Nat} :
    i ∈ g.getDstEdges v ↔ ∃ e, g.edges.get? i = some e ∧ e.b = v := by
  unfold CuConfig.getDstEdges
  rw [List.mem_reverse, List.mem_filter, List.mem_range]
  constructor
  · rintro ⟨hlt, hp⟩
    cases he : g.edges.get? i with
    | none => rw [he] at hp; simp at hp
    | some e =>
      rw [he] at hp
      exact ⟨e, rfl, by simpa using hp⟩
  · rintro ⟨e, he, hb⟩
    have hlt : i < g.edges.length := by
      rcases List.get?_eq_some.mp he with ⟨h, -⟩
      exact h
    refine ⟨hlt, ?_⟩
    rw [he]
    simpa using hb

/-- The returned `getSrcEdges` list is strictly descending. -/
theorem getSrcEdges_sorted (g : CuConfig) (v : Nat) :
    List.Sorted (fun a b => b < a) (g.getSrcEdges v) := by
  unfold CuConfig.getSrcEdges
  exact List.pairwise_reverse.mpr ((List.pairwise_lt_range _).filter _)

/-- The returned `getDstEdges` list is strictly descending. -/
theorem getDstEdges_sorted (g : CuConfig) (v : Nat) :
    List.Sorted (fun a b => b < a) (g.getDstEdges v) := by
  unfold CuConfig.getDstEdges
  exact List.pairwise_reverse.mpr ((List.pairwise_lt_range _).filter _)

/-! Claim theorems. -/

/-- Claim C1 (counterexample): in `exTwoEdges` the connections out of node 0
were declared in the order edge 0 (`m1`) then edge 1 (`m2`), so declaration
order is `[0, 1]`; `get_src_edges` (and `get_dst_edges` at node 1) actually
returns `[1, 0]`, the reverse. -/
theorem get_src_edges_insertion_order_counterexample :
    exTwoEdges.getSrcEdges 0 = [1, 0] ∧ exTwoEdges.getSrcEdges 0 ≠ [0, 1] ∧
    exTwoEdges.getDstEdges 1 = [1, 0] ∧ exTwoEdges.getDstEdges 1 ≠ [0, 1] := by
  decide

/-- Claim C1 (amended): for every graph and node `v`, `get_src_edges v`
(likewise `get_dst_edges v`) returns exactly the edge-ids of the edges with
source (target) `v`, in reverse declaration order — strictly descending
edge-id, most recently declared connection first — and the result depends
only on the declared connections, not on the node declarations. -/
theorem get_src_edges_reverse_insertion_order (g : CuConfig) (v : Nat) :
    List.Sorted (fun a b => b < a) (g.getSrcEdges v) ∧
    (∀ i, i ∈ g.getSrcEdges v ↔ ∃ e, g.edges.get? i = some e ∧ e.a = v) ∧
    List.Sorted (fun a b => b < a) (g.getDstEdges v) ∧
    (∀ i, i ∈ g.getDstEdges v ↔ ∃ e, g.edges.get? i = some e ∧ e.b = v) ∧
    (∀ nodes' monitor' logging',
      CuConfig.getSrcEdges
          { nodes := nodes', edges := g.edges, monitor := monitor',
            logging := logging' } v = g.getSrcEdges v ∧
      CuConfig.getDstEdges
          { nodes := nodes', edges := g.edges, monitor := monitor',
            logging := logging' } v = g.getDstEdges v) :=
  ⟨getSrcEdges_sorted g v, fun _ => mem_getSrcEdges,
   getDstEdges_sorted g v, fun _ => mem_getDstEdges,
   fun _ _ _ => ⟨rfl, rfl⟩⟩

/-- Claim C2: deserializing tasks `[src1, src2, sink]` with connections
`[src2→sink, src1→sink]` yields node-ids src1 = 0, src2 = 1, sink = 2 (the
`nodes` list in index order), and the sole outgoing edge of src1 is edge-id
1 while the sole outgoing edge of src2 is edge-id 0: edge-ids follow the
textual position in the `cnx` list, not the task order. -/
theorem deserialize_edge_id_assignment :
    (CuConfig.deserialize repEdgeOrder).map
        (fun g => (g.nodes.map Node.id, g.getSrcEdges 0, g.getSrcEdges 1))
      = some (["src1", "src2", "sink"], [1], [0]) := by
  decide

/-- Claim C5: with both sizes set, `LoggingConfig::validate` fails exactly
when `section_size_mib > slab_size_mib` and succeeds when
`section_size_mib ≤ slab_size_mib`; with either size unset it succeeds. -/
theorem logging_validate_spec (l : LoggingConfig) :
    (∀ s b, l.section_size_mib = some s → l.slab_size_mib = some b →
      ((l.validate.isOk = false ↔ b < s) ∧ (s ≤ b → l.validate = .ok ()))) ∧
    (l.section_size_mib = none → l.validate = .ok ()) ∧
    (l.slab_size_mib = none → l.validate = .ok ()) := by
  refine ⟨?_, ?_, ?_⟩
  · intro s b hs hb
    unfold LoggingConfig.validate
    rw [hs, hb]
    by_cases h : b < s
    · simp [h, Except.isOk, Except.toBool]
    · simp [h, Except.isOk, Except.toBool]
  · intro h
    unfold LoggingConfig.validate
    rw [h]
  · intro h
    unfold LoggingConfig.validate
    cases hs : l.section_size_mib with
    | none => rfl
    | some s => rw [h]

/-- Claim C5 (witness): the spec's concrete scenario — slab 100 / section
1024 is rejected, slab 1024 / section 100 is accepted. -/
theorem logging_validate_witness :
    loggingBad.validate.isOk = false ∧
    (LoggingConfig.mk (some 1024) (some 100) true).validate = .ok () :=
  ⟨((logging_validate_spec loggingBad).1 1024 100 rfl rfl).1.mpr (by decide),
   ((logging_validate_spec _).1 100 1024 rfl rfl).2 (by decide)⟩

/-- Claim C8: serializing the one-node graph whose `copper-camera` node has
config `resolution-height: 1080` and deserializing it back, the parameter
read as a signed 32-bit integer is 1080. -/
theorem param_roundtrip_1080 :
    (CuConfig.deserialize (CuConfig.serialize gCamera)).map
        (fun g => (g.getNode 0).map fun n =>
          n.getParamInt IntTarget.i32 "resolution-height")
      = some (some (some (Except.ok 1080))) := by
  rfl

/-- A `find?` over a list returns the element `i` when `i` is in the list,
satisfies the predicate, and is the only member that does. -/
theorem find?_eq_some_of_unique {l : List Nat} {p : Nat → Bool} {i : Nat}
    (hmem : i ∈ l) (hp : p i = true)
    (huniq : ∀ j ∈ l, p j = true → j = i) :
    l.find? p = some i := by
  induction l with
  | nil => cases hmem
  | cons a l ih =>
    by_cases ha : p a = true
    · have haa : a = i := huniq a (List.mem_cons_self a l) ha
      subst haa
      simp [List.find?, ha]
    · have ha' : p a = false := by simpa using ha
      have hia : i ≠ a := fun h => ha (h ▸ hp)
      have hmem' : i ∈ l := by
        rcases List.mem_cons.mp hmem with h | h
        · exact absurd h hia
        · exact h
      rw [List.find?]
      rw [ha']
      exact ih hmem' fun j hj hpj => huniq j (List.mem_cons_of_mem a hj) hpj

/-- With unique node ids, the index holding a node of a given id is unique. -/
theorem nodeId_index_unique {g : CuConfig} (hu : g.NodeIdsUnique) {i j : Nat}
    {m n : Node} (hi : g.nodes.get? i = some m) (hj : g.nodes.get? j = some n)
    (hid : m.id = n.id) : i = j := by
  rcases List.get?_eq_some.mp hi with ⟨hi', hgi⟩
  rcases List.get?_eq_some.mp hj with ⟨hj', hgj⟩
  by_contra hne
  rcases Nat.lt_or_ge i j with h | h
  · have hp := List.pairwise_iff_get.mp hu ⟨i, hi'⟩ ⟨j, hj'⟩ h
    rw [hgi, hgj] at hp
    exact hp hid
  · have hlt : j < i := Nat.lt_of_le_of_ne h fun hh => hne hh.symm
    have hp := List.pairwise_iff_get.mp hu ⟨j, hj'⟩ ⟨i, hi'⟩ hlt
    rw [hgi, hgj] at hp
    exact hp hid.symm

/-- With unique node ids, `findNodeIdx` recovers the index of a stored
node from its id. -/
theorem findNodeIdx_eq {g : CuConfig} (hu : g.NodeIdsUnique) {i : Nat}
    {n : Node} (hi : g.nodes.get? i = some n) :
    g.findNodeIdx n.id = some i := by
  unfold CuConfig.findNodeIdx
  apply find?_eq_some_of_unique
  · exact List.mem_range.mpr (List.get?_eq_some.mp hi).1
  · rw [hi]
    simp
  · intro j hj hpj
    cases hjn : g.nodes.get? j with
    | none => rw [hjn] at hpj; simp at hpj
    | some m =>
      rw [hjn] at hpj
      have hmn : m.id = n.id := by simpa using hpj
      exact nodeId_index_unique hu hjn hi hmn

/-- The task loop of the `Deserialize` impl appends the tasks in order. -/
theorem addNodes_eq (g : CuConfig) (ts : List Node) :
    CuConfig.addNodes g ts = { g with nodes := g.nodes ++ ts } := by
  induction ts generalizing g with
  | nil => simp [CuConfig.addNodes]
  | cons t ts ih =>
    rw [CuConfig.addNodes, ih]
    simp [CuConfig.addNode]

/-- The cnx loop of the `Deserialize` impl rebuilds exactly a given edge
list when the graph's node ids are unique and every edge is consistent with
the node list. -/
theorem addCnxs_roundtrip :
    ∀ (rest : List CuEdge) (g : CuConfig), g.NodeIdsUnique →
      (∀ e ∈ rest, NodesMatchEdge g.nodes e) →
      CuConfig.addCnxs g (rest.map CuEdge.cnx) =
        some { g with edges := g.edges ++ rest } := by
  intro rest
  induction rest with
  | nil =>
    intro g hu hwf
    simp [CuConfig.addCnxs]
  | cons e rest ih =>
    intro g hu hwf
    rcases hwf e (List.mem_cons_self e rest) with ⟨ns, nd, ha, hb, hsrc, hdst⟩
    have hfs : g.findNodeIdx e.cnx.src = some e.a := by
      rw [hsrc]; exact findNodeIdx_eq hu ha
    have hfd : g.findNodeIdx e.cnx.dst = some e.b := by
      rw [hdst]; exact findNodeIdx_eq hu hb
    have hedge :
        ({ a := e.a, b := e.b,
           cnx := { src := ns.id, dst := nd.id, msg := e.cnx.msg,
                    batch := e.cnx.batch, store := e.cnx.store } } : CuEdge)
          = e := by
      rw [← hsrc, ← hdst]
    have hce : g.connectExt e.a e.b e.cnx.msg e.cnx.batch e.cnx.store
        = some { g with edges := g.edges ++ [e] } := by
      unfold CuConfig.connectExt CuConfig.getNode
      rw [ha, hb]
      exact congrArg (fun x => some { g with edges := g.edges ++ [x] }) hedge
    have hu' : CuConfig.NodeIdsUnique { g with edges := g.edges ++ [e] } := hu
    have hwf' : ∀ e' ∈ rest,
        NodesMatchEdge ({ g with edges := g.edges ++ [e] } : CuConfig).nodes e' :=
      fun e' he' => hwf e' (List.mem_cons_of_mem e he')
    rw [List.map_cons, CuConfig.addCnxs, hfs, hfd]
    simp only [hce, ih _ hu' hwf']
    simp

/-- Claim C3: for every graph whose node ids are unique and whose edges are
endpoint-consistent (the spec's validity invariants),
`deserialize (serialize g)` rebuilds `g` exactly — in particular the node
count, edge count, every edge's endpoints, every edge's `msg`, and the
monitor and logging settings all survive the round-trip. -/
theorem deserialize_serialize (g : CuConfig) (h1 : g.NodeIdsUnique)
    (h2 : g.EdgesWf) :
    CuConfig.deserialize (CuConfig.serialize g) = some g := by
  cases g with
  | mk nodes edges monitor logging =>
    unfold CuConfig.deserialize CuConfig.serialize
    rw [addNodes_eq]
    have hg0 : ({ CuConfig.default with
        nodes := CuConfig.default.nodes ++ nodes } : CuConfig)
        = ⟨nodes, [], none, none⟩ := by
      simp [CuConfig.default]
    rw [hg0]
    have hu : CuConfig.NodeIdsUnique ⟨nodes, [], none, none⟩ := h1
    have hwf : ∀ e ∈ edges,
        NodesMatchEdge (CuConfig.mk nodes [] none none).nodes e := h2
    rw [addCnxs_roundtrip edges _ hu hwf]
    simp

/-- Claim C3 (witness): the two-node graph of `test_plain_serialize`
satisfies both validity hypotheses and survives the round-trip. -/
theorem deserialize_serialize_witness :
    exRoundTrip.NodeIdsUnique ∧ exRoundTrip.EdgesWf ∧
    CuConfig.deserialize (CuConfig.serialize exRoundTrip) = some exRoundTrip := by
  have h1 : exRoundTrip.NodeIdsUnique := by
    show List.Pairwise _ _
    decide
  have h2 : exRoundTrip.EdgesWf := by
    intro e he
    rw [show exRoundTrip.edges
        = [CuEdge.mk 0 1 (Cnx.mk "test1" "test2" "msgpkg::MsgType" none none)]
      from rfl] at he
    rw [List.mem_singleton] at he
    subst he
    exact ⟨Node.new "test1" "package::Plugin1",
           Node.new "test2" "package::Plugin2", rfl, rfl, rfl, rfl⟩
  exact ⟨h1, h2, deserialize_serialize exRoundTrip h1 h2⟩

/-- Claim C4 (counterexample): `repDupCycle` violates node-id uniqueness
(two tasks with id `a`) and acyclicity (a self-loop edge `0 → 0`), yet
loading accepts it and returns the graph; and `repMissingEndpoint`, whose
connection names an unknown task, makes loading panic (`none`) instead of
returning a validation error. -/
theorem load_validation_counterexample :
    readConfigurationStr repDupCycle = some (Except.ok gDupCycle) ∧
    gDupCycle.nodes.map Node.id = ["a", "a"] ∧
    gDupCycle.edges.map (fun e => (e.a, e.b)) = [(0, 0)] ∧
    readConfigurationStr repMissingEndpoint = none :=
  ⟨rfl, rfl, rfl, rfl⟩

/-- Claim C4 (amended): loading a configuration performs only the logging
validation as a returned error: once deserialization produced a graph `g`,
loading succeeds exactly when the logging check passes and fails exactly
with the logging check's error — node-id uniqueness and acyclicity are
never checked, and an unknown edge endpoint is a panic inside
deserialization (the `none` case of `deserialize`), not an error value. -/
theorem read_configuration_checks_only_logging (r : CuConfigRepresentation)
    (g : CuConfig) (e : String) (h : CuConfig.deserialize r = some g) :
    (readConfigurationStr r = some (Except.ok g) ↔
      g.validateLoggingConfig = Except.ok ()) ∧
    (readConfigurationStr r = some (Except.error e) ↔
      g.validateLoggingConfig = Except.error e) := by
  unfold readConfigurationStr
  rw [h]
  cases hv : g.validateLoggingConfig with
  | ok u =>
    cases u
    simp [hv]
  | error e' =>
    simp [hv]

/-- Claim C4 (amended, witness): at the duplicate-id self-loop input, the
load result is governed purely by the logging check. -/
theorem read_configuration_checks_only_logging_witness :
    (readConfigurationStr repDupCycle = some (Except.ok gDupCycle) ↔
      gDupCycle.validateLoggingConfig = Except.ok ()) ∧
    (readConfigurationStr repDupCycle = some (Except.error "boom") ↔
      gDupCycle.validateLoggingConfig = Except.error "boom") :=
  read_configuration_checks_only_logging repDupCycle gDupCycle "boom" rfl

/-- Claim C6 (counterexample): node `a` of `exTwoEdges` declared its edge 0
(msg `m1`) before edge 1 (msg `m2`), so the claim predicts `m1`; the code
returns `m2`, the msg of the most recently declared edge, on both the
output side (node `a`) and the input side (node `b`). -/
theorem infer_type_first_edge_counterexample :
    exTwoEdges.getNodeOutputMsgType "a" = Except.ok (some "m2") ∧
    (exTwoEdges.getEdgeWeight 0).map Cnx.msg = some "m1" ∧
    exTwoEdges.getNodeInputMsgType "b" = Except.ok (some "m2") ∧
    "m2" ≠ "m1" :=
  ⟨rfl, rfl, rfl, by decide⟩

/-- Claim C6 (amended): for a node id that resolves to index `i`,
`get_node_output_msg_type` panics exactly when the node has no outgoing
edge, and otherwise returns the `msg` of the edge at the head of
`get_src_edges` — the MOST RECENTLY declared outgoing edge (its edge-id
bounds every outgoing edge-id from above); symmetrically for
`get_node_input_msg_type` with incoming edges. -/
theorem getNodeMsgType_latest_edge (g : CuConfig) (i : Nat) (nodeId : String)
    (hfind : g.findNodeIdx nodeId = some i) :
    (g.getSrcEdges i = [] → g.getNodeOutputMsgType nodeId
        = Except.error "A CuSrcTask is configured with no task connected to it.") ∧
    (∀ j js, g.getSrcEdges i = j :: js →
      ∃ e, g.edges.get? j = some e ∧ e.a = i ∧
        g.getNodeOutputMsgType nodeId = Except.ok (some e.cnx.msg) ∧
        ∀ k ∈ g.getSrcEdges i, k ≤ j) ∧
    (g.getDstEdges i = [] → g.getNodeInputMsgType nodeId
        = Except.error "A CuSinkTask is configured with no task connected to it.") ∧
    (∀ j js, g.getDstEdges i = j :: js →
      ∃ e, g.edges.get? j = some e ∧ e.b = i ∧
        g.getNodeInputMsgType nodeId = Except.ok (some e.cnx.msg) ∧
        ∀ k ∈ g.getDstEdges i, k ≤ j) := by
  refine ⟨?_, ?_, ?_, ?_⟩
  · intro h0
    unfold CuConfig.getNodeOutputMsgType
    simp only [hfind, h0]
  · intro j js hjs
    have hjmem : j ∈ g.getSrcEdges i := by rw [hjs]; exact List.mem_cons_self j js
    rcases mem_getSrcEdges.mp hjmem with ⟨e, hge, hea⟩
    refine ⟨e, hge, hea, ?_, ?_⟩
    · unfold CuConfig.getNodeOutputMsgType
      simp only [hfind, hjs, hge]
    · intro k hk
      have hsorted := getSrcEdges_sorted g i
      rw [hjs] at hsorted hk
      rcases List.mem_cons.mp hk with h | h
      · exact le_of_eq h
      · exact le_of_lt (List.rel_of_sorted_cons hsorted k h)
  · intro h0
    unfold CuConfig.getNodeInputMsgType
    simp only [hfind, h0]
  · intro j js hjs
    have hjmem : j ∈ g.getDstEdges i := by rw [hjs]; exact List.mem_cons_self j js
    rcases mem_getDstEdges.mp hjmem with ⟨e, hge, heb⟩
    refine ⟨e, hge, heb, ?_, ?_⟩
    · unfold CuConfig.getNodeInputMsgType
      simp only [hfind, hjs, hge]
    · intro k hk
      have hsorted := getDstEdges_sorted g i
      rw [hjs] at hsorted hk
      rcases List.mem_cons.mp hk with h | h
      · exact le_of_eq h
      · exact le_of_lt (List.rel_of_sorted_cons hsorted k h)

/-- Claim C6 (amended, witness): in the chain `a → b → c`, node `a` has no
incoming edge so the input-type inference panics, and its output type is
the msg of its (single, hence latest) outgoing edge. -/
theorem getNodeMsgType_latest_edge_witness :
    exChain.getNodeInputMsgType "a"
      = Except.error "A CuSinkTask is configured with no task connected to it." ∧
    exChain.getNodeOutputMsgType "a" = Except.ok (some "m<1") := by
  obtain ⟨e, hge, -, hmsg, -⟩ :=
    (getNodeMsgType_latest_edge exChain 0 "a" rfl).2.1 0 [] rfl
  have he : e = CuEdge.mk 0 1 (Cnx.mk "a" "b" "m<1" none none) :=
    Option.some.inj ((rfl :
      exChain.edges.get? 0
        = some (CuEdge.mk 0 1 (Cnx.mk "a" "b" "m<1" none none))).symm.trans hge).symm
  rw [he] at hmsg
  exact ⟨(getNodeMsgType_latest_edge exChain 0 "a" rfl).2.2.1 rfl, hmsg⟩

/-- Every integer target has a positive bit width. -/
theorem IntTarget.width_pos (t : IntTarget) : 0 < t.width := by
  cases t <;> decide

/-- Splitting the modulus at the sign bit: `2 ^ w = 2 ^ (w - 1) * 2`. -/
theorem IntTarget.two_pow_width (t : IntTarget) :
    (2 : Int) ^ t.width = 2 ^ (t.width - 1) * 2 := by
  conv_lhs =>
    rw [show t.width = (t.width - 1) + 1 from
      (Nat.succ_pred_eq_of_pos t.width_pos).symm]
  rw [pow_succ]

/-- The Rust cast lands in the representable range of the target type. -/
theorem rustCast_inRange (t : IntTarget) (n : Int) : t.InRange (rustCast t n) := by
  have h2w : (0 : Int) < 2 ^ t.width := by positivity
  have h2w1 : (0 : Int) < 2 ^ (t.width - 1) := by positivity
  have hm0 : 0 ≤ n % 2 ^ t.width := Int.emod_nonneg n (ne_of_gt h2w)
  have hm1 : n % 2 ^ t.width < 2 ^ t.width := Int.emod_lt_of_pos n h2w
  have hpow := t.two_pow_width
  unfold rustCast interpBits IntTarget.InRange
  cases hs : t.signed with
  | false =>
    rw [if_neg (by rintro ⟨h, -⟩; cases h)]
    exact ⟨hm0, hm1⟩
  | true =>
    by_cases hge : 2 ^ (t.width - 1) ≤ n % 2 ^ t.width
    · rw [if_pos ⟨rfl, hge⟩]
      constructor
      · linarith
      · linarith
    · rw [if_neg (by rintro ⟨-, h⟩; exact hge h)]
      constructor
      · linarith
      · linarith [lt_of_not_le hge]

/-- The Rust cast is congruent to the source value modulo `2 ^ width`. -/
theorem rustCast_congruent (t : IntTarget) (n : Int) :
    (2 ^ t.width : Int) ∣ (rustCast t n - n) := by
  have hmod : (2 ^ t.width : Int) ∣ (n % 2 ^ t.width - n) := by
    rw [Int.emod_def]
    exact Dvd.intro (-(n / 2 ^ t.width)) (by ring)
  unfold rustCast interpBits
  by_cases h : t.signed = true ∧ 2 ^ (t.width - 1) ≤ n % 2 ^ t.width
  · rw [if_pos h]
    have hsplit : n % 2 ^ t.width - 2 ^ t.width - n
        = (n % 2 ^ t.width - n) + 2 ^ t.width * (-1) := by ring
    rw [hsplit]
    exact dvd_add hmod (Dvd.intro (-1) rfl)
  · rw [if_neg h]
    exact hmod

/-- Two values in the representable range of the same target that are
congruent modulo `2 ^ width` are equal: the two's-complement reduction is
uniquely determined. -/
theorem inRange_congruent_unique (t : IntTarget) {r r' : Int}
    (h1 : t.InRange r) (h2 : t.InRange r')
    (hd : (2 ^ t.width : Int) ∣ (r - r')) : r = r' := by
  have h2w : (0 : Int) < 2 ^ t.width := by positivity
  have hpow := t.two_pow_width
  have hb : -(2 ^ t.width : Int) < r - r' ∧ r - r' < 2 ^ t.width := by
    unfold IntTarget.InRange at h1 h2
    cases hs : t.signed with
    | false =>
      rw [hs] at h1 h2
      exact ⟨by linarith [h1.1, h2.2], by linarith [h1.2, h2.1]⟩
    | true =>
      rw [hs] at h1 h2
      exact ⟨by linarith [h1.1, h2.2], by linarith [h1.2, h2.1]⟩
  obtain ⟨k, hk⟩ := hd
  have hk0 : k = 0 := by
    by_contra hk0
    rcases lt_or_gt_of_ne hk0 with hneg | hpos
    · have hle : (2 ^ t.width : Int) * k ≤ 2 ^ t.width * (-1) :=
        mul_le_mul_of_nonneg_left (by omega) (le_of_lt h2w)
      rw [← hk] at hle
      linarith [hb.1]
    · have hle : (2 ^ t.width : Int) * 1 ≤ 2 ^ t.width * k :=
        mul_le_mul_of_nonneg_left (by omega) (le_of_lt h2w)
      rw [← hk] at hle
      linarith [hb.2]
  rw [hk0, mul_zero] at hk
  linarith

/-- Combined specification of the Rust cast: the result is the unique value
in the target's range congruent to the source modulo `2 ^ width` — the
standard two's-complement widen/truncate. -/
theorem castSpec (t : IntTarget) (n : Int) :
    t.InRange (rustCast t n) ∧ (2 ^ t.width : Int) ∣ (rustCast t n - n) ∧
    ∀ r', t.InRange r' → ((2 ^ t.width : Int) ∣ (r' - n)) → r' = rustCast t n :=
  ⟨rustCast_inRange t n, rustCast_congruent t n,
   fun r' h1 h2 =>
     inRange_congruent_unique t h1 (rustCast_inRange t n)
       (by
         have hh : r' - rustCast t n = (r' - n) - (rustCast t n - n) := by ring
         rw [hh]
         exact dvd_sub h2 (rustCast_congruent t n))⟩

/-- Claim C7: extracting a host integer type from a `Value` fails on every
non-`Number` variant and on both float variants; on every integer variant it
succeeds with the standard two's-complement widen/truncate of the stored
integer — the unique value in the target's range congruent to the stored
value modulo `2 ^ width`. -/
theorem fromValueInt_spec (t : IntTarget) :
    (∀ v : Value, (∀ num, v.val ≠ RonValue.number num) →
      (fromValueInt t v).isOk = false) ∧
    (∀ bits, (fromValueInt t ⟨RonValue.number (RonNumber.f32 bits)⟩).isOk = false ∧
             (fromValueInt t ⟨RonValue.number (RonNumber.f64 bits)⟩).isOk = false) ∧
    (∀ num n, RonNumber.intValue? num = some n →
      fromValueInt t ⟨RonValue.number num⟩ = Except.ok (rustCast t n) ∧
      t.InRange (rustCast t n) ∧
      (2 ^ t.width : Int) ∣ (rustCast t n - n) ∧
      ∀ r', t.InRange r' → ((2 ^ t.width : Int) ∣ (r' - n)) →
        r' = rustCast t n) := by
  refine ⟨?_, ?_, ?_⟩
  · intro v h
    cases v with
    | mk val =>
      cases val with
      | number num => exact absurd rfl (h num)
      | string s => rfl
      | bool b => rfl
      | char c => rfl
      | map m => rfl
      | option o => rfl
      | seq l => rfl
      | bytes bs => rfl
      | unit => rfl
  · intro bits
    exact ⟨rfl, rfl⟩
  · intro num n h
    cases num with
    | i8 m =>
      rw [← Option.some.inj h]
      exact ⟨rfl, castSpec t m⟩
    | i16 m =>
      rw [← Option.some.inj h]
      exact ⟨rfl, castSpec t m⟩
    | i32 m =>
      rw [← Option.some.inj h]
      exact ⟨rfl, castSpec t m⟩
    | i64 m =>
      rw [← Option.some.inj h]
      exact ⟨rfl, castSpec t m⟩
    | u8 m =>
      rw [← Option.some.inj h]
      exact ⟨rfl, castSpec t (m : Int)⟩
    | u16 m =>
      rw [← Option.some.inj h]
      exact ⟨rfl, castSpec t (m : Int)⟩
    | u32 m =>
      rw [← Option.some.inj h]
      exact ⟨rfl, castSpec t (m : Int)⟩
    | u64 m =>
      rw [← Option.some.inj h]
      exact ⟨rfl, castSpec t (m : Int)⟩
    | f32 bits => cases h
    | f64 bits => cases h

/-- Claim C7 (witness): a `String` value rejects extraction to `i32`, an
`f64` value rejects it too, and extracting the `I32` value 300 as a `u8`
succeeds with the two's-complement truncation 300 mod 256 = 44. -/
theorem fromValueInt_spec_witness :
    (fromValueInt IntTarget.i32 (Value.ofString "hello")).isOk = false ∧
    (fromValueInt IntTarget.i32 ⟨RonValue.number (RonNumber.f64 42)⟩).isOk
      = false ∧
    fromValueInt IntTarget.u8 ⟨RonValue.number (RonNumber.i32 300)⟩
      = Except.ok (rustCast IntTarget.u8 300) ∧
    rustCast IntTarget.u8 300 = 44 := by
  refine ⟨?_, ?_, ?_, ?_⟩
  · exact (fromValueInt_spec IntTarget.i32).1 (Value.ofString "hello")
      (by intro num h; simp [Value.ofString] at h)
  · exact ((fromValueInt_spec IntTarget.i32).2.1 42).2
  · exact ((fromValueInt_spec IntTarget.u8).2.2 (RonNumber.i32 300) 300 rfl).1
  · decide

/-- Adding a node preserves edge/endpoint consistency: the edges are
untouched and node lookups at existing indices are unchanged by the
append. -/
theorem edgesWf_addNode {g : CuConfig} (hwf : g.EdgesWf) (n : Node) :
    ((g.addNode n).1).EdgesWf := by
  intro e he
  rcases hwf e he with ⟨ns, nd, ha, hb, hs, hd⟩
  have hla : e.a < g.nodes.length := (List.get?_eq_some.mp ha).1
  have hlb : e.b < g.nodes.length := (List.get?_eq_some.mp hb).1
  refine ⟨ns, nd, ?_, ?_, hs, hd⟩
  · show (g.nodes ++ [n]).get? e.a = some ns
    rw [List.get?_append hla]
    exact ha
  · show (g.nodes ++ [n]).get? e.b = some nd
    rw [List.get?_append hlb]
    exact hb

/-- A successful `connect_ext` preserves edge/endpoint consistency: the new
edge's `Cnx` strings are built from the very nodes its endpoint indices
denote. -/
theorem edgesWf_connectExt {g g' : CuConfig} (hwf : g.EdgesWf) {s t : Nat}
    {m : String} {b : Option Nat} {st : Option Bool}
    (h : g.connectExt s t m b st = some g') : g'.EdgesWf := by
  unfold CuConfig.connectExt at h
  cases hgs : g.getNode s with
  | none => rw [hgs] at h; simp at h
  | some sn =>
    cases hgt : g.getNode t with
    | none => rw [hgs, hgt] at h; simp at h
    | some tn =>
      rw [hgs, hgt] at h
      have hg' := (Option.some.inj h).symm
      subst hg'
      intro e he
      rcases List.mem_append.mp he with hold | hnew
      · rcases hwf e hold with ⟨ns, nd, ha, hb, hs', hd⟩
        exact ⟨ns, nd, ha, hb, hs', hd⟩
      · rw [List.mem_singleton] at hnew
        subst hnew
        exact ⟨sn, tn, hgs, hgt, rfl, rfl⟩

/-- The cnx loop of the `Deserialize` impl preserves edge/endpoint
consistency. -/
theorem edgesWf_addCnxs :
    ∀ (cs : List Cnx) {g g' : CuConfig}, g.EdgesWf →
      CuConfig.addCnxs g cs = some g' → g'.EdgesWf := by
  intro cs
  induction cs with
  | nil =>
    intro g g' hwf h
    rw [CuConfig.addCnxs] at h
    exact (Option.some.inj h) ▸ hwf
  | cons c cs ih =>
    intro g g' hwf h
    rw [CuConfig.addCnxs] at h
    cases hfs : g.findNodeIdx c.src with
    | none => rw [hfs] at h; simp at h
    | some s =>
      cases hfd : g.findNodeIdx c.dst with
      | none =>
        simp only [hfs, hfd] at h
        exact Option.noConfusion h
      | some d =>
        simp only [hfs, hfd] at h
        cases hce : g.connectExt s d c.msg c.batch c.store with
        | none =>
          simp only [hce] at h
          exact Option.noConfusion h
        | some g1 =>
          simp only [hce] at h
          exact ih (edgesWf_connectExt hwf hce) h

/-- Deserialization produces an edge/endpoint-consistent graph: it starts
from an edge-free graph and only ever runs `connect_ext`. -/
theorem edgesWf_deserialize {r : CuConfigRepresentation} {g : CuConfig}
    (h : CuConfig.deserialize r = some g) : g.EdgesWf := by
  unfold CuConfig.deserialize at h
  cases hc : CuConfig.addCnxs (CuConfig.addNodes CuConfig.default r.tasks)
      r.cnx with
  | none => rw [hc] at h; simp at h
  | some g1 =>
    rw [hc] at h
    have hwf0 : (CuConfig.addNodes CuConfig.default r.tasks).EdgesWf := by
      rw [addNodes_eq]
      intro e he
      cases he
    have hwf1 := edgesWf_addCnxs r.cnx hwf0 hc
    rw [← Option.some.inj h]
    exact fun e he => hwf1 e he

/-- Applying any operation sequence preserves edge/endpoint consistency. -/
theorem applyOps_edgesWf :
    ∀ (ops : List Op) {g0 g : CuConfig}, g0.EdgesWf →
      applyOps g0 ops = some g → g.EdgesWf := by
  intro ops
  induction ops with
  | nil =>
    intro g0 g hwf h
    rw [applyOps] at h
    exact (Option.some.inj h) ▸ hwf
  | cons op rest ih =>
    intro g0 g hwf h
    rw [applyOps] at h
    cases hop : applyOp g0 op with
    | none =>
      simp only [hop] at h
      exact Option.noConfusion h
    | some g1 =>
      simp only [hop] at h
      have hwf1 : g1.EdgesWf := by
        cases op with
        | addNode n => exact (Option.some.inj hop) ▸ edgesWf_addNode hwf n
        | connect s t m => exact edgesWf_connectExt hwf hop
        | connectExt s t m b st => exact edgesWf_connectExt hwf hop
      exact ih hwf1 h

/-- Claim C10: starting from the empty configuration or from any successful
deserialization, after any sequence of `add_node`, `connect` and
`connect_ext` operations every stored edge's `Cnx.src` string equals the id
of its source node and its `Cnx.dst` string equals the id of its destination
node. -/
theorem edges_consistent_after_ops (ops : List Op) (g0 g : CuConfig)
    (h0 : g0 = CuConfig.default ∨ ∃ r, CuConfig.deserialize r = some g0)
    (h : applyOps g0 ops = some g) : g.EdgesWf := by
  have hwf0 : g0.EdgesWf := by
    rcases h0 with h0 | ⟨r, hr⟩
    · subst h0
      intro e he
      cases he
    · exact edgesWf_deserialize hr
  exact applyOps_edgesWf ops hwf0 h

/-- Claim C10 (witness): the four-operation sequence builds `gOpsW`, whose
edges are endpoint-consistent. -/
theorem edges_consistent_after_ops_witness :
    applyOps CuConfig.default opsWitness = some gOpsW ∧ gOpsW.EdgesWf :=
  ⟨rfl,
   edges_consistent_after_ops opsWitness CuConfig.default gOpsW (Or.inl rfl)
     rfl⟩

/-- A string contains itself. -/
theorem containsStr_refl (s : String) : containsStr s s :=
  ⟨[], [], by simp⟩

/-- Containment survives appending on the right. -/
theorem containsStr_append_left {a x : String} (b : String)
    (h : containsStr a x) : containsStr (a ++ b) x := by
  rcases h with ⟨s, t, hst⟩
  exact ⟨s, t ++ b.data, by rw [String.data_append, ← hst]; simp⟩

/-- Containment survives appending on the left. -/
theorem containsStr_append_right {b x : String} (a : String)
    (h : containsStr b x) : containsStr (a ++ b) x := by
  rcases h with ⟨s, t, hst⟩
  exact ⟨a.data ++ s, t, by rw [String.data_append, ← hst]; simp⟩

/-- Containment is transitive. -/
theorem containsStr_trans {hay mid needle : String}
    (h1 : containsStr hay mid) (h2 : containsStr mid needle) :
    containsStr hay needle :=
  List.IsInfix.trans h2 h1

/-- Every member of a joined list is contained in the join. -/
theorem joinSep_contains (sep : String) :
    ∀ (parts : List String) (p : String), p ∈ parts →
      containsStr (joinSep sep parts) p := by
  intro parts
  induction parts with
  | nil => intro p hp; cases hp
  | cons s rest ih =>
    intro p hp
    cases rest with
    | nil =>
      rw [List.mem_singleton] at hp
      subst hp
      exact containsStr_refl p
    | cons r rs =>
      rcases List.mem_cons.mp hp with h | h
      · subst h
        show containsStr (p ++ sep ++ joinSep sep (r :: rs)) p
        exact containsStr_append_left _
          (containsStr_append_left _ (containsStr_refl p))
      · show containsStr (s ++ sep ++ joinSep sep (r :: rs)) p
        exact containsStr_append_right _ (ih p h)

/-- The node loop output contains the block of the node at list position
`k` (petgraph index `i0 + k`) as an infix. -/
theorem nodeBlock_infix :
    ∀ (ns : List Node) (g : CuConfig) (i0 k : Nat) (n : Node)
      (bs : List String), ns.get? k = some n →
      renderNodesFrom g i0 ns = some bs →
      ∃ B, nodeBlock g (i0 + k) n = some B ∧ B <:+: bs := by
  intro ns
  induction ns with
  | nil => intro g i0 k n bs hk hr; cases hk
  | cons n0 rest ih =>
    intro g i0 k n bs hk hr
    rw [renderNodesFrom] at hr
    cases hb0 : nodeBlock g i0 n0 with
    | none =>
      simp only [hb0] at hr
      exact Option.noConfusion hr
    | some b0 =>
      cases hrest : renderNodesFrom g (i0 + 1) rest with
      | none =>
        simp only [hb0, hrest] at hr
        exact Option.noConfusion hr
      | some bs' =>
        simp only [hb0, hrest] at hr
        have hbs : b0 ++ bs' = bs := Option.some.inj hr
        cases k with
        | zero =>
          have hn : n0 = n := Option.some.inj hk
          refine ⟨b0, ?_, ?_⟩
          · rw [Nat.add_zero, ← hn]
            exact hb0
          · rw [← hbs]
            exact ⟨[], bs', by simp⟩
        | succ k' =>
          obtain ⟨B, hB, hinf⟩ := ih g (i0 + 1) k' n bs' hk hrest
          refine ⟨B, ?_, ?_⟩
          · rw [show i0 + (k' + 1) = (i0 + 1) + k' from by omega]
            exact hB
          · rw [← hbs]
            exact hinf.trans ⟨b0, [], by simp⟩

/-- Claim C9: in the emitted dot description, every node's block appears as
an infix of the output; a node with no incoming edges is filled light-green,
one with no outgoing edges but at least one incoming is filled light-blue,
every other node light-grey; the node's label line carries its id, its type
and every config key-value pair; and every edge's emitted line appears in
the output and carries the html-escaped `msg` type. -/
theorem render_spec (g : CuConfig) (L : List String) (i : Nat) (node : Node)
    (B : List String) (e : CuEdge)
    (hr : g.render = some L) (hn : g.nodes.get? i = some node)
    (hB : nodeBlock g i node = some B) (he : e ∈ g.edges) :
    B <:+: L ∧
    (g.getDstEdges i = [] → "fillcolor=lightgreen," ∈ B) ∧
    (g.getDstEdges i ≠ [] → g.getSrcEdges i = [] → "fillcolor=lightblue," ∈ B) ∧
    (g.getDstEdges i ≠ [] → g.getSrcEdges i ≠ [] → "fillcolor=lightgrey," ∈ B) ∧
    (∀ t, node.type_ = some t →
      labelLine node t ∈ B ∧
      containsStr (labelLine node t) node.id ∧
      containsStr (labelLine node t) t ∧
      ∀ c, node.config = some c → ∀ p ∈ c.entries,
        containsStr (labelLine node t) p.1 ∧
        containsStr (labelLine node t) p.2.display) ∧
    edgeLine e ∈ L ∧
    containsStr (edgeLine e) (encodeText e.cnx.msg) := by
  unfold CuConfig.render at hr
  cases hblocks : renderNodesFrom g 0 g.nodes with
  | none =>
    rw [hblocks] at hr
    exact Option.noConfusion hr
  | some blocks =>
    rw [hblocks] at hr
    have hL : ["digraph G \x7b"] ++ blocks ++ g.edges.map edgeLine ++ ["\x7d"]
        = L := Option.some.inj hr
    obtain ⟨B', hB', hinfB⟩ := nodeBlock_infix g.nodes g 0 i node blocks hn hblocks
    rw [Nat.zero_add] at hB'
    have hEq : B' = B := by
      rw [hB] at hB'
      exact (Option.some.inj hB').symm
    subst hEq
    cases htype : node.type_ with
    | none =>
      unfold nodeBlock at hB
      rw [htype] at hB
      exact Option.noConfusion hB
    | some t =>
      unfold nodeBlock at hB
      rw [htype] at hB
      have hBlit := (Option.some.inj hB).symm
      subst hBlit
      refine ⟨?_, ?_, ?_, ?_, ?_, ?_, ?_⟩
      · refine hinfB.trans ?_
        rw [← hL]
        exact ⟨["digraph G \x7b"], g.edges.map edgeLine ++ ["\x7d"], by simp⟩
      · intro h1
        rw [if_pos h1]
        simp
      · intro h1 h2
        rw [if_neg h1, if_pos h2]
        simp
      · intro h1 h2
        rw [if_neg h1, if_neg h2]
        simp
      · intro t' ht'
        have htt : t = t' := Option.some.inj ht'
        subst htt
        refine ⟨by simp, ?_, ?_, ?_⟩
        · unfold labelLine
          exact containsStr_append_left _ (containsStr_append_left _
            (containsStr_append_left _ (containsStr_append_left _
              (containsStr_append_left _ (containsStr_append_right _
                (containsStr_refl node.id))))))
        · unfold labelLine
          exact containsStr_append_left _ (containsStr_append_left _
            (containsStr_append_left _ (containsStr_append_right _
              (containsStr_refl t))))
        · intro c hc p hp
          have hcfg : containsStr (labelLine node t) (configStr node.config) := by
            unfold labelLine
            exact containsStr_append_left _
              (containsStr_append_right _ (containsStr_refl _))
          rw [hc] at hcfg
          have hjoin : containsStr (configStr (some c))
              ("<B>" ++ p.1 ++ "</B> = " ++ p.2.display ++
                "<BR ALIGN=\"LEFT\"/>") := by
            unfold configStr
            exact containsStr_append_right _
              (joinSep_contains "\n" _ _ (List.mem_map_of_mem _ hp))
          have hpart1 : containsStr
              ("<B>" ++ p.1 ++ "</B> = " ++ p.2.display ++
                "<BR ALIGN=\"LEFT\"/>") p.1 :=
            containsStr_append_left _ (containsStr_append_left _
              (containsStr_append_left _ (containsStr_append_right _
                (containsStr_refl _))))
          have hpart2 : containsStr
              ("<B>" ++ p.1 ++ "</B> = " ++ p.2.display ++
                "<BR ALIGN=\"LEFT\"/>") p.2.display :=
            containsStr_append_left _
              (containsStr_append_right _ (containsStr_refl _))
          exact ⟨containsStr_trans (containsStr_trans hcfg hjoin) hpart1,
                 containsStr_trans (containsStr_trans hcfg hjoin) hpart2⟩
      · rw [← hL]
        simp only [List.mem_append]
        exact Or.inl (Or.inr (List.mem_map_of_mem _ he))
      · unfold edgeLine
        exact containsStr_append_left _
          (containsStr_append_right _ (containsStr_refl _))

/-- Claim C9 (witness): in the rendered chain `a → b → c`, node `a`'s block
is an infix of the output, is light-green (no incoming edge), and its label
line carries the node id; the first edge's line is emitted with the msg
`m<1` html-escaped. -/
theorem render_spec_witness :
    exChainBlock0 <:+: exChainLines ∧
    "fillcolor=lightgreen," ∈ exChainBlock0 ∧
    labelLine (Node.new "a" "ta") "ta" ∈ exChainBlock0 ∧
    containsStr (labelLine (Node.new "a" "ta") "ta") "a" ∧
    edgeLine (CuEdge.mk 0 1 (Cnx.mk "a" "b" "m<1" none none)) ∈ exChainLines ∧
    containsStr (edgeLine (CuEdge.mk 0 1 (Cnx.mk "a" "b" "m<1" none none)))
      (encodeText "m<1") := by
  obtain ⟨h1, h2, -, -, h5, h6, h7⟩ :=
    render_spec exChain exChainLines 0 (Node.new "a" "ta") exChainBlock0
      (CuEdge.mk 0 1 (Cnx.mk "a" "b" "m<1" none none)) rfl rfl rfl
      (by
        rw [show exChain.edges
            = [CuEdge.mk 0 1 (Cnx.mk "a" "b" "m<1" none none),
               CuEdge.mk 1 2 (Cnx.mk "b" "c" "m2" none none)] from rfl]
        exact List.mem_cons_self _ _)
  obtain ⟨hl1, hl2, -, -⟩ := h5 "ta" rfl
  exact ⟨h1, h2 rfl, hl1, hl2, h6, h7⟩

end CopperConfig
